import Mathlib

/-!
Shallow embedding of the staged-file linting dispatchers
`scripts/lint-staged-nx.js` and `scripts/nx-monorepo-lint-staged.js`.

Paths are modelled as lists of characters (JS strings).  External effects
(the file system, the `nx` CLI and the `eslint` engine) are modelled by an
environment of boolean oracles, and each dispatcher function additionally
returns the list of external commands it issues, in order.
-/

namespace LintStagedDispatch

/-- A file-system path, modelled as a JS string: a list of characters. -/
abbrev Path := List Char

/-- Model of `filePath.replace(/\\/g, "/")`: replace every backslash by a slash
(shared by both scripts). -/
def normalizePath (p : Path) : Path :=
  p.map (fun c => if c = '\\' then '/' else c)

/-- Does `s` start with `pat`?  (JS `String.prototype.startsWith`.) -/
def startsWithL : Path → Path → Bool
  | _, [] => true
  | [], _ :: _ => false
  | c :: s, d :: p => c = d && startsWithL s p

/-- Does `s` contain `pat` as a contiguous substring?
(JS `String.prototype.includes`.) -/
def containsSubstr (s pat : Path) : Bool :=
  match s with
  | [] => startsWithL [] pat
  | _ :: rest => startsWithL s pat || containsSubstr rest pat

/-- Does `s` end with `suf`?  (the `$`-anchored part of the extension
regular expression `\.(ts|tsx|js|jsx)$`.) -/
def endsWithL (s suf : Path) : Bool :=
  suf.isSuffixOf s

/-- If `pat` is a prefix of `s`, return the remainder, else `none`. -/
def dropPre : Path → Path → Option Path
  | [], s => some s
  | _ :: _, [] => none
  | d :: pat, c :: s => if d = c then dropPre pat s else none

/-- The regular expression `^<pat>([^/]+)` applied to `s`, returning capture
group 1: the maximal nonempty run of non-`/` characters after the literal
prefix `pat`.  Both scripts use it with `pat` = `apps/` and `libs/`. -/
def matchProjectSeg (pat s : Path) : Option Path :=
  match dropPre pat s with
  | none => none
  | some rest =>
    let seg := rest.takeWhile (fun c => c != '/')
    if seg.isEmpty then none else some seg

/-- The literal prefix `apps/`. -/
def appsPre : Path := ['a', 'p', 'p', 's', '/']

/-- The literal prefix `libs/`. -/
def libsPre : Path := ['l', 'i', 'b', 's', '/']

/-- Project kind, per `getProjectFromFilePath` in
`nx-monorepo-lint-staged.js` (`"app"`, `"lib"`, `"root"`). -/
inductive ProjKind where
  | app
  | lib
  | root
deriving DecidableEq, Repr

/-- The `{type, name}` record returned by `getProjectFromFilePath`
(`name` is `none` for root-level files, modelling JS `null`). -/
structure ProjectRef where
  kind : ProjKind
  name : Option Path
deriving DecidableEq, Repr

/-- An external command issued by either dispatcher. -/
inductive Cmd where
  /-- Command `nx show project <project> --json`. -/
  | nxShowProject (project : Path)
  /-- Command `nx lint <project> --fix --files=<files>` (lint-staged-nx.js). -/
  | nxLintFiles (project : Path) (files : List Path)
  /-- Command `nx lint <project> --fix` (nx-monorepo-lint-staged.js). -/
  | nxLintProject (project : Path)
  /-- Command `npx eslint --fix <files>`. -/
  | eslintFix (files : List Path)
deriving DecidableEq, Repr

/-- The external world: file-system existence (`fs.existsSync`), the exit
status of each external command, and the parsed presence of a `lint` target
in the JSON that `nx show project` prints. -/
structure Env where
  fsExists : Path → Bool
  run : Cmd → Bool
  lintTargetOf : Path → Bool

/-- Model of `projectHasLintTarget` (identical logic in both scripts): run
`nx show project <p> --json`; when the command succeeds, parse its JSON and
report whether `targets.lint` is present; otherwise report `false`. -/
def projectHasLintTarget (env : Env) (project : Path) : Bool :=
  env.run (Cmd.nxShowProject project) && env.lintTargetOf project

end LintStagedDispatch

namespace LintStagedDispatch.LintStagedNx

open LintStagedDispatch

/-- Model of `getProjectForFile` in `lint-staged-nx.js`: normalize the path, then
first match `^apps\/([^/]+)`, then `^libs\/([^/]+)`, else `null`. -/
def getProjectForFile (filePath : Path) : Option Path :=
  let normalized := normalizePath filePath
  match matchProjectSeg appsPre normalized with
  | some n => some n
  | none =>
    match matchProjectSeg libsPre normalized with
    | some n => some n
    | none => none

/-- Model of `lintFilesDirect` in `lint-staged-nx.js`: run `npx eslint --fix` on the
whole batch; on success return `true`; on failure re-run eslint once per
file, collect the files whose individual run failed, and succeed iff that
list is empty.  Returns the outcome and the ordered command trace. -/
def lintFilesDirect (env : Env) (files : List Path) : Bool × List Cmd :=
  if env.run (Cmd.eslintFix files) then
    (true, [Cmd.eslintFix files])
  else
    let failedFiles := files.filter (fun f => !(env.run (Cmd.eslintFix [f])))
    (failedFiles.isEmpty, Cmd.eslintFix files :: files.map (fun f => Cmd.eslintFix [f]))

/-- Model of `lintProjectFiles` in `lint-staged-nx.js`: query the lint capability;
with a lint target, run `nx lint <project> --fix --files=<list>` and fall
back to `lintFilesDirect` on failure; without one, go straight to
`lintFilesDirect`. -/
def lintProjectFiles (env : Env) (project : Path) (files : List Path) : Bool × List Cmd :=
  let q := Cmd.nxShowProject project
  if projectHasLintTarget env project then
    let c := Cmd.nxLintFiles project files
    if env.run c then
      (true, [q, c])
    else
      let r := lintFilesDirect env files
      (r.1, q :: c :: r.2)
  else
    let r := lintFilesDirect env files
    (r.1, q :: r.2)

/-- The grouping state of `lint-staged-nx.js`: the insertion-ordered map
`projectFiles` (project name to its file list) and the `workspaceFiles`
list. -/
structure Groups where
  projectFiles : List (Path × List Path)
  workspaceFiles : List Path
deriving DecidableEq, Repr

/-- Model of `projectFiles.get(project).push(file)` preceded by the
`if (!projectFiles.has(project)) projectFiles.set(project, [])` guard:
append `file` to the entry of `project`, creating the entry at the end of
the map when absent. -/
def addToProject : List (Path × List Path) → Path → Path → List (Path × List Path)
  | [], project, file => [(project, [file])]
  | (k, fs) :: rest, project, file =>
    if k = project then (k, fs ++ [file]) :: rest
    else (k, fs) :: addToProject rest project file

/-- One iteration of the grouping loop of `lint-staged-nx.js` (lines
94-106): skip files that do not exist; classify the rest and append them to
their project's list or to `workspaceFiles`. -/
def groupStep (env : Env) (st : Groups) (file : Path) : Groups :=
  if env.fsExists file then
    match getProjectForFile file with
    | some project => { st with projectFiles := addToProject st.projectFiles project file }
    | none => { st with workspaceFiles := st.workspaceFiles ++ [file] }
  else st

/-- The whole grouping loop of `lint-staged-nx.js`. -/
def groupFiles (env : Env) (stagedFiles : List Path) : Groups :=
  stagedFiles.foldl (groupStep env) ⟨[], []⟩

/-- First-occurrence lookup in the grouping map (how
`projectFiles.get(project)` reads the map); `[]` when the key is absent. -/
def lookupGroup : List (Path × List Path) → Path → List Path
  | [], _ => []
  | (k, fs) :: rest, project => if k = project then fs else lookupGroup rest project

/-- The `for (const [project, files] of projectFiles)` loop of `main` in
`lint-staged-nx.js`: lint every group in order, never stopping early, and
conjoin the outcomes. -/
def processGroups (env : Env) : List (Path × List Path) → Bool × List Cmd
  | [] => (true, [])
  | (project, files) :: rest =>
    let r := lintProjectFiles env project files
    let rr := processGroups env rest
    (r.1 && rr.1, r.2 ++ rr.2)

/-- The whole `lint-staged-nx.js` run: the empty-argument guard, the
grouping loop, `main`'s two phases (project groups, then workspace files),
and the final exit code (`0` on overall success, `1` otherwise). -/
def mainRun (env : Env) (stagedFiles : List Path) : Nat × List Cmd :=
  if stagedFiles.isEmpty then (0, [])
  else
    let g := groupFiles env stagedFiles
    let pr := processGroups env g.projectFiles
    let wr := if g.workspaceFiles.isEmpty then (true, ([] : List Cmd))
              else lintFilesDirect env g.workspaceFiles
    (if pr.1 && wr.1 then 0 else 1, pr.2 ++ wr.2)

end LintStagedDispatch.LintStagedNx

namespace LintStagedDispatch.NxMonorepo

open LintStagedDispatch

/-- Model of `getProjectFromFilePath` in `nx-monorepo-lint-staged.js`. -/
def getProjectFromFilePath (filePath : Path) : ProjectRef :=
  let normalizedPath := normalizePath filePath
  match matchProjectSeg appsPre normalizedPath with
  | some n => ⟨ProjKind.app, some n⟩
  | none =>
    match matchProjectSeg libsPre normalizedPath with
    | some n => ⟨ProjKind.lib, some n⟩
    | none => ⟨ProjKind.root, none⟩

/-- Constant `EXCLUDED_LIBRARIES = ["ui-kit"]`. -/
def EXCLUDED_LIBRARIES : List Path := ["ui-kit".toList]

/-- The exclusion test inside `filterLintableFiles`:
`normalizedPath.includes("/libs/" + lib + "/") ||
 normalizedPath.includes("\libs\" + lib + "\")` for some excluded `lib`
(the path is normalized before the test, so the backslash disjunct is
retained only for faithfulness). -/
def isExcludedFile (file : Path) : Bool :=
  let normalizedPath := normalizePath file
  EXCLUDED_LIBRARIES.any (fun lib =>
    containsSubstr normalizedPath ("/libs/".toList ++ lib ++ "/".toList) ||
    containsSubstr normalizedPath ("\\libs\\".toList ++ lib ++ "\\".toList))

/-- The lintability test `/\.(ts|tsx|js|jsx)$/.test(file)`, applied to the
raw (unnormalized) path. -/
def isLintableFile (file : Path) : Bool :=
  endsWithL file (".ts".toList) || endsWithL file (".tsx".toList) ||
  endsWithL file (".js".toList) || endsWithL file (".jsx".toList)

/-- Model of `filterLintableFiles` in `nx-monorepo-lint-staged.js`: drop excluded
files (with an informational note), then keep only lintable files that
exist on disk. -/
def filterLintableFiles (env : Env) (files : List Path) : List Path :=
  files.filter (fun file =>
    if isExcludedFile file then false
    else isLintableFile file && env.fsExists file)

/-- Model of `getAffectedProjectsFromFiles`: the insertion-ordered set of project
names of the given files, skipping root-level files (`name` null) and
names listed in `EXCLUDED_LIBRARIES`. -/
def getAffectedProjectsFromFiles (files : List Path) : List Path :=
  files.foldl
    (fun projects file =>
      match (getProjectFromFilePath file).name with
      | some n =>
        if EXCLUDED_LIBRARIES.any (fun l => l = n) then projects
        else if projects.any (fun p => p = n) then projects
        else projects ++ [n]
      | none => projects)
    []

/-- Model of `lintFilesDirectly` in `nx-monorepo-lint-staged.js`: immediately `true`
on an empty list, else a single batch `npx eslint --fix <files>` whose exit
status is the outcome (no per-file retry). -/
def lintFilesDirectly (env : Env) (files : List Path) : Bool × List Cmd :=
  if files.isEmpty then (true, [])
  else (env.run (Cmd.eslintFix files), [Cmd.eslintFix files])

/-- One iteration of the `for (const project of projects)` loop of
`lintSpecificProjects`: query the lint capability and skip the project
(successfully) when it has none; skip it when none of the files belong to
it; otherwise run `nx lint <project> --fix`. -/
def lintOneProject (env : Env) (files : List Path) (project : Path) : Bool × List Cmd :=
  let q := Cmd.nxShowProject project
  if projectHasLintTarget env project then
    let projectFiles := files.filter (fun file =>
      (getProjectFromFilePath file).name = some project)
    if projectFiles.isEmpty then (true, [q])
    else
      let c := Cmd.nxLintProject project
      (env.run c, [q, c])
  else (true, [q])

/-- Model of `lintSpecificProjects`: with no projects, fall back to
`lintFilesDirectly`; otherwise process every project in order, never
stopping early, and conjoin the outcomes. -/
def lintSpecificProjects (env : Env) (projects : List Path) (files : List Path) :
    Bool × List Cmd :=
  if projects.isEmpty then lintFilesDirectly env files
  else
    projects.foldl
      (fun acc project =>
        let r := lintOneProject env files project
        (acc.1 && r.1, acc.2 ++ r.2))
      (true, [])

/-- The workspace manifest checked by `main`: `nx.json`. -/
def nxJsonPath : Path := "nx.json".toList

/-- The whole `nx-monorepo-lint-staged.js` run: the empty-argument guard,
`filterLintableFiles` with its empty-result guard, the `nx.json` check,
project detection and the final dispatch, with the process exit code. -/
def mainRun (env : Env) (stagedFiles : List Path) : Nat × List Cmd :=
  if stagedFiles.isEmpty then (0, [])
  else
    let filteredFiles := filterLintableFiles env stagedFiles
    if filteredFiles.isEmpty then (0, [])
    else if env.fsExists nxJsonPath = false then
      let r := lintFilesDirectly env filteredFiles
      (if r.1 then 0 else 1, r.2)
    else
      let affectedProjects := getAffectedProjectsFromFiles filteredFiles
      if affectedProjects.isEmpty then
        let r := lintFilesDirectly env filteredFiles
        (if r.1 then 0 else 1, r.2)
      else
        let r := lintSpecificProjects env affectedProjects filteredFiles
        (if r.1 then 0 else 1, r.2)

/-- The stderr handler of `lintFilesDirectly` (lines 198-205): a stderr
chunk is written through to the user iff it contains `"error"` and does
not contain `"warning"`. -/
def stderrChunkShown (output : Path) : Bool :=
  containsSubstr output ("error".toList) && !(containsSubstr output ("warning".toList))

/-- The user-facing stderr of a direct eslint invocation: the emitted
chunks that pass `stderrChunkShown`, in order. -/
def surfacedStderr (chunks : List Path) : List Path :=
  chunks.filter stderrChunkShown

end LintStagedDispatch.NxMonorepo

namespace LintStagedDispatch

/-- Concrete project name used in concrete runs. -/
def cWeb : Path := "web".toList

/-- Concrete staged file under `apps/web`. -/
def cFileA : Path := "apps/web/a.ts".toList

/-- Second concrete staged file under `apps/web`. -/
def cFileB : Path := "apps/web/b.ts".toList

/-- Third concrete staged file under `apps/web`. -/
def cFileC : Path := "apps/web/c.ts".toList

/-- Concrete staged file under the excluded library, written relative to
the repository root as the repository's own docs and tests do. -/
def cUiKit : Path := "libs/ui-kit/src/c.ts".toList

/-- Environment in which every file exists, every command succeeds and
every project has a lint target. -/
def envAll : Env :=
  { fsExists := fun _ => true
    run := fun _ => true
    lintTargetOf := fun _ => true }

/-- Environment in which every file exists and every command succeeds, but
no project has a lint target. -/
def envNoLint : Env :=
  { fsExists := fun _ => true
    run := fun _ => true
    lintTargetOf := fun _ => false }

/-- Environment in which the batch eslint invocation on
`[cFileA, cFileB, cFileC]` fails while every other command succeeds. -/
def envBatchFail : Env :=
  { fsExists := fun _ => true
    run := fun c => decide (c ≠ Cmd.eslintFix [cFileA, cFileB, cFileC])
    lintTargetOf := fun _ => false }

/-- Environment in which `nx.json` is absent and everything else exists
and succeeds. -/
def envNoManifest : Env :=
  { fsExists := fun p => decide (p ≠ NxMonorepo.nxJsonPath)
    run := fun _ => true
    lintTargetOf := fun _ => true }

/-- The staged-file pipeline assembled from the two cited code sites:
`filterLintableFiles` of `nx-monorepo-lint-staged.js` feeding the grouping
loop of `lint-staged-nx.js`. -/
def pipelineGroups (env : Env) (input : List Path) : LintStagedNx.Groups :=
  LintStagedNx.groupFiles env (NxMonorepo.filterLintableFiles env input)

/-- Is this command a single-file (per-file retry) eslint invocation? -/
def isSingleFileEslint : Cmd → Bool
  | Cmd.eslintFix [_] => true
  | _ => false

/-- How many single-file eslint invocations a trace contains. -/
def singleFileEslintCount (tr : List Cmd) : Nat :=
  (tr.filter isSingleFileEslint).length

end LintStagedDispatch

namespace LintStagedDispatch.LintStagedNx

open LintStagedDispatch

/-- Membership: `f` belongs to some group of the grouping state (a project group or the
workspace group), under set semantics. -/
def memGroups (g : Groups) (f : Path) : Prop :=
  (∃ k fs, (k, fs) ∈ g.projectFiles ∧ f ∈ fs) ∨ f ∈ g.workspaceFiles

/-- The classification invariant of the grouping state: every file stored
under a project key classifies to that key, and every workspace file
classifies to no project. -/
def KeyInv (g : Groups) : Prop :=
  (∀ k fs, (k, fs) ∈ g.projectFiles → ∀ f ∈ fs, getProjectForFile f = some k)
  ∧ (∀ f ∈ g.workspaceFiles, getProjectForFile f = none)

end LintStagedDispatch.LintStagedNx

namespace LintStagedDispatch

/-! ### Path-normalization and classification lemmas -/

theorem normalizePath_append (p q : Path) :
    normalizePath (p ++ q) = normalizePath p ++ normalizePath q :=
  List.map_append _ p q

theorem normalizePath_idem (p : Path) :
    normalizePath (normalizePath p) = normalizePath p := by
  induction p with
  | nil => rfl
  | cons c rest ih =>
      simp only [normalizePath, List.map_cons] at ih ⊢
      rw [ih]
      by_cases h : c = '\\'
      · simp [h]
      · simp [h]

theorem normalizePath_eq_self (p : Path) (h : ∀ c ∈ p, c ≠ '\\') :
    normalizePath p = p := by
  induction p with
  | nil => rfl
  | cons c rest ih =>
      simp only [normalizePath, List.map_cons]
      rw [if_neg (h c (List.mem_cons_self c rest))]
      exact congrArg (c :: ·) (ih fun d hd => h d (List.mem_cons_of_mem c hd))

theorem dropPre_append (pre s : Path) : dropPre pre (pre ++ s) = some s := by
  induction pre with
  | nil => rfl
  | cons c rest ih => simp [dropPre, ih]

theorem takeWhile_no_slash (name rest : Path) (h : ∀ c ∈ name, c ≠ '/') :
    (name ++ '/' :: rest).takeWhile (fun c => c != '/') = name := by
  induction name with
  | nil => simp [List.takeWhile]
  | cons c tail ih =>
      have hc : c ≠ '/' := h c (List.mem_cons_self c tail)
      simp only [List.cons_append, List.takeWhile_cons]
      rw [if_pos (by simp [bne_iff_ne, hc])]
      exact congrArg (c :: ·) (ih fun d hd => h d (List.mem_cons_of_mem c hd))

theorem matchProjectSeg_append (pre name rest : Path) (hn : name ≠ [])
    (h : ∀ c ∈ name, c ≠ '/') :
    matchProjectSeg pre (pre ++ name ++ '/' :: rest) = some name := by
  have hassoc : pre ++ name ++ '/' :: rest = pre ++ (name ++ '/' :: rest) :=
    List.append_assoc pre name ('/' :: rest)
  rw [hassoc]
  simp only [matchProjectSeg, dropPre_append, takeWhile_no_slash name rest h]
  rw [if_neg (by simpa [List.isEmpty_iff] using hn)]

theorem dropPre_appsPre_libsPre (s : Path) : dropPre appsPre (libsPre ++ s) = none := by
  simp only [appsPre, libsPre, List.cons_append, dropPre]
  rw [if_neg (by decide)]

theorem matchProjectSeg_apps_libs (s : Path) :
    matchProjectSeg appsPre (libsPre ++ s) = none := by
  simp only [matchProjectSeg, dropPre_appsPre_libsPre]

theorem normalizePath_seg (pre name rest : Path) (hpre : ∀ c ∈ pre, c ≠ '\\')
    (hname : ∀ c ∈ name, c ≠ '\\') :
    normalizePath (pre ++ name ++ '/' :: rest) = pre ++ name ++ '/' :: normalizePath rest := by
  rw [List.append_assoc, normalizePath_append, normalizePath_eq_self pre hpre,
    normalizePath_append, normalizePath_eq_self name hname, ← List.append_assoc]
  rfl

theorem getProjectFromFilePath_apps (name rest : Path) (hn : name ≠ [])
    (h : ∀ c ∈ name, c ≠ '/' ∧ c ≠ '\\') :
    NxMonorepo.getProjectFromFilePath (appsPre ++ name ++ '/' :: rest)
      = ⟨ProjKind.app, some name⟩ := by
  have hnorm := normalizePath_seg appsPre name rest (by decide)
    (fun c hc => (h c hc).2)
  simp only [NxMonorepo.getProjectFromFilePath, hnorm,
    matchProjectSeg_append appsPre name _ hn (fun c hc => (h c hc).1)]

theorem getProjectFromFilePath_libs (name rest : Path) (hn : name ≠ [])
    (h : ∀ c ∈ name, c ≠ '/' ∧ c ≠ '\\') :
    NxMonorepo.getProjectFromFilePath (libsPre ++ name ++ '/' :: rest)
      = ⟨ProjKind.lib, some name⟩ := by
  have hnorm := normalizePath_seg libsPre name rest (by decide)
    (fun c hc => (h c hc).2)
  have happs : matchProjectSeg appsPre (libsPre ++ name ++ '/' :: normalizePath rest)
      = none := by
    rw [List.append_assoc]
    exact matchProjectSeg_apps_libs _
  simp only [NxMonorepo.getProjectFromFilePath, hnorm, happs,
    matchProjectSeg_append libsPre name _ hn (fun c hc => (h c hc).1)]

theorem getProjectFromFilePath_norm (p : Path) :
    NxMonorepo.getProjectFromFilePath (normalizePath p)
      = NxMonorepo.getProjectFromFilePath p := by
  simp only [NxMonorepo.getProjectFromFilePath, normalizePath_idem]

theorem getProjectFromFilePath_root (p : Path)
    (h1 : matchProjectSeg appsPre (normalizePath p) = none)
    (h2 : matchProjectSeg libsPre (normalizePath p) = none) :
    NxMonorepo.getProjectFromFilePath p = ⟨ProjKind.root, none⟩ := by
  simp only [NxMonorepo.getProjectFromFilePath, h1, h2]

theorem getProjectForFile_eq_name (p : Path) :
    LintStagedNx.getProjectForFile p = (NxMonorepo.getProjectFromFilePath p).name := by
  simp only [LintStagedNx.getProjectForFile, NxMonorepo.getProjectFromFilePath]
  cases h1 : matchProjectSeg appsPre (normalizePath p) with
  | some n => simp [h1]
  | none =>
      cases h2 : matchProjectSeg libsPre (normalizePath p) with
      | some n => simp [h1, h2]
      | none => simp [h1, h2]

end LintStagedDispatch

namespace LintStagedDispatch.LintStagedNx

open LintStagedDispatch

/-! ### Grouping lemmas -/

theorem exists_mem_addToProject (m : List (Path × List Path)) (p x f : Path) :
    (∃ k fs, (k, fs) ∈ addToProject m p x ∧ f ∈ fs)
      ↔ (∃ k fs, (k, fs) ∈ m ∧ f ∈ fs) ∨ f = x := by
  induction m with
  | nil =>
      simp only [addToProject, List.mem_singleton, Prod.mk.injEq, List.not_mem_nil,
        false_and, exists_false, false_or]
      constructor
      · rintro ⟨k, fs, ⟨rfl, rfl⟩, hf⟩
        exact (List.mem_singleton.mp hf).symm ▸ rfl
      · rintro rfl
        exact ⟨p, [f], ⟨rfl, rfl⟩, List.mem_singleton_self f⟩
  | cons hd tail ih =>
      obtain ⟨k0, fs0⟩ := hd
      by_cases hk : k0 = p
      · subst hk
        simp only [addToProject, if_pos rfl, List.mem_cons, Prod.mk.injEq]
        aesop
      · simp only [addToProject, if_neg hk, List.mem_cons, Prod.mk.injEq]
        constructor
        · rintro ⟨k, fs, hm | hm, hf⟩
          · exact Or.inl ⟨k, fs, Or.inl hm, hf⟩
          · rcases ih.mp ⟨k, fs, hm, hf⟩ with ⟨k1, fs1, hm1, hf1⟩ | hfx
            · exact Or.inl ⟨k1, fs1, Or.inr hm1, hf1⟩
            · exact Or.inr hfx
        · rintro (⟨k, fs, hm | hm, hf⟩ | rfl)
          · exact ⟨k, fs, Or.inl hm, hf⟩
          · obtain ⟨k1, fs1, hm1, hf1⟩ := ih.mpr (Or.inl ⟨k, fs, hm, hf⟩)
            exact ⟨k1, fs1, Or.inr hm1, hf1⟩
          · obtain ⟨k1, fs1, hm1, hf1⟩ := ih.mpr (Or.inr rfl)
            exact ⟨k1, fs1, Or.inr hm1, hf1⟩

theorem memGroups_groupStep (env : Env) (st : Groups) (x f : Path) :
    memGroups (groupStep env st x) f
      ↔ memGroups st f ∨ (f = x ∧ env.fsExists x = true) := by
  unfold groupStep
  by_cases he : env.fsExists x = true
  · rw [if_pos he]
    cases hp : getProjectForFile x with
    | none =>
        simp only [memGroups, List.mem_append, List.mem_singleton]
        constructor
        · rintro (h | (h | rfl))
          · exact Or.inl (Or.inl h)
          · exact Or.inl (Or.inr h)
          · exact Or.inr ⟨rfl, he⟩
        · rintro ((h | h) | ⟨rfl, _⟩)
          · exact Or.inl h
          · exact Or.inr (Or.inl h)
          · exact Or.inr (Or.inr rfl)
    | some p =>
        simp only [memGroups]
        rw [exists_mem_addToProject]
        constructor
        · rintro ((h | rfl) | h)
          · exact Or.inl (Or.inl h)
          · exact Or.inr ⟨rfl, he⟩
          · exact Or.inl (Or.inr h)
        · rintro ((h | h) | ⟨rfl, _⟩)
          · exact Or.inl (Or.inl h)
          · exact Or.inr h
          · exact Or.inl (Or.inr rfl)
  · rw [if_neg he]
    constructor
    · exact Or.inl
    · rintro (h | ⟨rfl, hex⟩)
      · exact h
      · exact absurd hex he

theorem memGroups_foldl (env : Env) (files : List Path) (st : Groups) (f : Path) :
    memGroups (files.foldl (groupStep env) st) f
      ↔ memGroups st f ∨ (f ∈ files ∧ env.fsExists f = true) := by
  induction files generalizing st with
  | nil => simp
  | cons x xs ih =>
      rw [List.foldl_cons, ih, memGroups_groupStep]
      constructor
      · rintro ((h | ⟨rfl, hx⟩) | ⟨hmem, hex⟩)
        · exact Or.inl h
        · exact Or.inr ⟨List.mem_cons_self _ _, hx⟩
        · exact Or.inr ⟨List.mem_cons_of_mem _ hmem, hex⟩
      · rintro (h | ⟨hmem, hex⟩)
        · exact Or.inl (Or.inl h)
        · rcases List.mem_cons.mp hmem with rfl | hmem
          · exact Or.inl (Or.inr ⟨rfl, hex⟩)
          · exact Or.inr ⟨hmem, hex⟩

theorem memGroups_groupFiles (env : Env) (files : List Path) (f : Path) :
    memGroups (groupFiles env files) f ↔ f ∈ files ∧ env.fsExists f = true := by
  unfold groupFiles
  rw [memGroups_foldl]
  simp [memGroups]

theorem addToProject_cons_self (k0 : Path) (fs0 : List Path)
    (tail : List (Path × List Path)) (x : Path) :
    addToProject ((k0, fs0) :: tail) k0 x = (k0, fs0 ++ [x]) :: tail := by
  simp [addToProject]

theorem addToProject_cons_ne (k0 : Path) (fs0 : List Path)
    (tail : List (Path × List Path)) (p x : Path) (h : k0 ≠ p) :
    addToProject ((k0, fs0) :: tail) p x = (k0, fs0) :: addToProject tail p x := by
  simp [addToProject, h]

theorem lookupGroup_cons_self (k : Path) (fs : List Path)
    (tail : List (Path × List Path)) :
    lookupGroup ((k, fs) :: tail) k = fs := by
  simp [lookupGroup]

theorem lookupGroup_cons_ne (k0 : Path) (fs : List Path)
    (tail : List (Path × List Path)) (k : Path) (h : k0 ≠ k) :
    lookupGroup ((k0, fs) :: tail) k = lookupGroup tail k := by
  simp [lookupGroup, h]

theorem key_addToProject (m : List (Path × List Path)) (p x k : Path) (fs : List Path)
    (f : Path) (hm : (k, fs) ∈ addToProject m p x) (hf : f ∈ fs) :
    (∃ fs0, (k, fs0) ∈ m ∧ f ∈ fs0) ∨ (k = p ∧ f = x) := by
  induction m with
  | nil =>
      simp only [addToProject, List.mem_singleton, Prod.mk.injEq] at hm
      obtain ⟨rfl, rfl⟩ := hm
      simp only [List.mem_singleton] at hf
      exact Or.inr ⟨rfl, hf⟩
  | cons hd tail ih =>
      obtain ⟨k0, fs0⟩ := hd
      by_cases hk : k0 = p
      · subst hk
        rw [addToProject_cons_self] at hm
        rcases List.mem_cons.mp hm with heq | htail
        · injection heq with h1 h2
          subst h1
          subst h2
          rcases List.mem_append.mp hf with hf0 | hfx
          · exact Or.inl ⟨fs0, List.mem_cons_self _ _, hf0⟩
          · exact Or.inr ⟨rfl, List.mem_singleton.mp hfx⟩
        · exact Or.inl ⟨fs, List.mem_cons_of_mem _ htail, hf⟩
  -- the head key differs from the inserted project: recurse
      · rw [addToProject_cons_ne _ _ _ _ _ hk] at hm
        rcases List.mem_cons.mp hm with heq | htail
        · refine Or.inl ⟨fs, ?_, hf⟩
          rw [heq]
          exact List.mem_cons_self _ _
        · rcases ih htail with ⟨fs1, hm1, hf1⟩ | hpx
          · exact Or.inl ⟨fs1, List.mem_cons_of_mem _ hm1, hf1⟩
          · exact Or.inr hpx

theorem keyInv_groupStep (env : Env) (st : Groups) (x : Path) (h : KeyInv st) :
    KeyInv (groupStep env st x) := by
  unfold groupStep
  by_cases he : env.fsExists x = true
  · rw [if_pos he]
    cases hp : getProjectForFile x with
    | none =>
        refine ⟨h.1, fun f hf => ?_⟩
        rcases List.mem_append.mp hf with hf0 | hfx
        · exact h.2 f hf0
        · exact (List.mem_singleton.mp hfx) ▸ hp
    | some p =>
        refine ⟨fun k fs hm f hf => ?_, h.2⟩
        rcases key_addToProject st.projectFiles p x k fs f hm hf with ⟨fs0, hm0, hf0⟩ | ⟨rfl, rfl⟩
        · exact h.1 k fs0 hm0 f hf0
        · exact hp
  · rw [if_neg he]
    exact h

theorem keyInv_foldl (env : Env) (files : List Path) (st : Groups) (h : KeyInv st) :
    KeyInv (files.foldl (groupStep env) st) := by
  induction files generalizing st with
  | nil => exact h
  | cons x xs ih => exact ih _ (keyInv_groupStep env st x h)

theorem keyInv_groupFiles (env : Env) (files : List Path) :
    KeyInv (groupFiles env files) := by
  refine keyInv_foldl env files ⟨[], []⟩ ⟨?_, ?_⟩
  · intro k fs hm
    exact absurd hm (List.not_mem_nil _)
  · intro f hf
    exact absurd hf (List.not_mem_nil _)

theorem keys_addToProject_sub (m : List (Path × List Path)) (p x k : Path)
    (h : k ∈ (addToProject m p x).map Prod.fst) : k ∈ m.map Prod.fst ∨ k = p := by
  induction m with
  | nil =>
      simp only [addToProject, List.map_cons, List.map_nil, List.mem_singleton] at h
      exact Or.inr h
  | cons hd tail ih =>
      obtain ⟨k0, fs0⟩ := hd
      by_cases hk : k0 = p
      · subst hk
        rw [addToProject_cons_self] at h
        simp only [List.map_cons, List.mem_cons] at h ⊢
        exact Or.inl h
  -- distinct head key: recurse on the tail
      · rw [addToProject_cons_ne _ _ _ _ _ hk] at h
        simp only [List.map_cons, List.mem_cons] at h ⊢
        rcases h with rfl | htail
        · exact Or.inl (Or.inl rfl)
        · rcases ih htail with h1 | h1
          · exact Or.inl (Or.inr h1)
          · exact Or.inr h1

theorem nodup_keys_addToProject (m : List (Path × List Path)) (p x : Path)
    (h : (m.map Prod.fst).Nodup) : ((addToProject m p x).map Prod.fst).Nodup := by
  induction m with
  | nil => simp [addToProject]
  | cons hd tail ih =>
      obtain ⟨k0, fs0⟩ := hd
      simp only [List.map_cons, List.nodup_cons] at h
      by_cases hk : k0 = p
      · subst hk
        rw [addToProject_cons_self]
        simp only [List.map_cons, List.nodup_cons]
        exact ⟨h.1, h.2⟩
      · rw [addToProject_cons_ne _ _ _ _ _ hk]
        simp only [List.map_cons, List.nodup_cons]
        refine ⟨fun hmem => ?_, ih h.2⟩
        rcases keys_addToProject_sub tail p x k0 hmem with h1 | h1
        · exact h.1 h1
        · exact hk h1

theorem nodup_keys_groupStep (env : Env) (st : Groups) (x : Path)
    (h : (st.projectFiles.map Prod.fst).Nodup) :
    (((groupStep env st x).projectFiles).map Prod.fst).Nodup := by
  unfold groupStep
  by_cases he : env.fsExists x = true
  · rw [if_pos he]
    cases getProjectForFile x with
    | none => exact h
    | some p => exact nodup_keys_addToProject st.projectFiles p x h
  · rw [if_neg he]
    exact h

theorem nodup_keys_groupFiles (env : Env) (files : List Path) :
    (((groupFiles env files).projectFiles).map Prod.fst).Nodup := by
  unfold groupFiles
  have : ∀ st : Groups, (st.projectFiles.map Prod.fst).Nodup →
      (((files.foldl (groupStep env) st).projectFiles).map Prod.fst).Nodup := by
    induction files with
    | nil => exact fun st h => h
    | cons x xs ih => exact fun st h => ih _ (nodup_keys_groupStep env st x h)
  exact this ⟨[], []⟩ (by simp)

theorem lookupGroup_addToProject (m : List (Path × List Path)) (p x k : Path) :
    lookupGroup (addToProject m p x) k
      = if k = p then lookupGroup m k ++ [x] else lookupGroup m k := by
  induction m with
  | nil =>
      by_cases hk : k = p
      · subst hk
        show lookupGroup [(k, [x])] k = if k = k then lookupGroup [] k ++ [x] else _
        rw [if_pos rfl, lookupGroup_cons_self]
        rfl
      · show lookupGroup [(p, [x])] k = _
        rw [if_neg hk, lookupGroup_cons_ne _ _ _ _ (fun h => hk h.symm)]
  | cons hd tail ih =>
      obtain ⟨k0, fs0⟩ := hd
      by_cases hk0 : k0 = p
      · subst hk0
        rw [addToProject_cons_self]
        by_cases hk : k0 = k
        · subst hk
          rw [lookupGroup_cons_self, lookupGroup_cons_self, if_pos rfl]
        · rw [lookupGroup_cons_ne _ _ _ _ hk, lookupGroup_cons_ne _ _ _ _ hk,
            if_neg (fun h => hk h.symm)]
  -- head key differs from the inserted project
      · rw [addToProject_cons_ne _ _ _ _ _ hk0]
        by_cases hk : k0 = k
        · subst hk
          rw [lookupGroup_cons_self, lookupGroup_cons_self,
            if_neg (fun h : k0 = p => hk0 h)]
        · rw [lookupGroup_cons_ne _ _ _ _ hk, lookupGroup_cons_ne _ _ _ _ hk, ih]

theorem mem_lookupGroup_self (m : List (Path × List Path)) (k f : Path)
    (h : f ∈ lookupGroup m k) : (k, lookupGroup m k) ∈ m := by
  induction m with
  | nil => exact absurd h (List.not_mem_nil _)
  | cons hd tail ih =>
      obtain ⟨k0, fs0⟩ := hd
      by_cases hk : k0 = k
      · subst hk
        simp only [lookupGroup, if_pos rfl]
        exact List.mem_cons_self _ _
      · simp only [lookupGroup, if_neg hk] at h ⊢
        exact List.mem_cons_of_mem _ (ih h)

theorem lookupGroup_groupStep_mono (env : Env) (st : Groups) (x k f : Path)
    (h : f ∈ lookupGroup st.projectFiles k) :
    f ∈ lookupGroup (groupStep env st x).projectFiles k := by
  unfold groupStep
  by_cases he : env.fsExists x = true
  · rw [if_pos he]
    cases getProjectForFile x with
    | none => exact h
    | some p =>
        show f ∈ lookupGroup (addToProject st.projectFiles p x) k
        rw [lookupGroup_addToProject]
        by_cases hk : k = p
        · rw [if_pos hk]
          exact List.mem_append_left _ h
        · rw [if_neg hk]
          exact h
  · rw [if_neg he]
    exact h

theorem lookupGroup_groupStep_self (env : Env) (st : Groups) (x k : Path)
    (he : env.fsExists x = true) (hp : getProjectForFile x = some k) :
    x ∈ lookupGroup (groupStep env st x).projectFiles k := by
  unfold groupStep
  rw [if_pos he, hp]
  show x ∈ lookupGroup (addToProject st.projectFiles k x) k
  rw [lookupGroup_addToProject, if_pos rfl]
  exact List.mem_append_right _ (List.mem_singleton_self x)

theorem mem_lookupGroup_foldl (env : Env) (files : List Path) (st : Groups) (k f : Path)
    (h : f ∈ lookupGroup st.projectFiles k
      ∨ (f ∈ files ∧ env.fsExists f = true ∧ getProjectForFile f = some k)) :
    f ∈ lookupGroup (files.foldl (groupStep env) st).projectFiles k := by
  induction files generalizing st with
  | nil =>
      rcases h with h | ⟨hmem, _, _⟩
      · exact h
      · exact absurd hmem (List.not_mem_nil _)
  | cons x xs ih =>
      rw [List.foldl_cons]
      apply ih
      rcases h with h | ⟨hmem, hex, hp⟩
      · exact Or.inl (lookupGroup_groupStep_mono env st x k f h)
      · rcases List.mem_cons.mp hmem with rfl | hmem
        · exact Or.inl (lookupGroup_groupStep_self env st f k hex hp)
        · exact Or.inr ⟨hmem, hex, hp⟩

theorem mem_lookupGroup_groupFiles (env : Env) (files : List Path) (f k : Path)
    (hmem : f ∈ files) (hex : env.fsExists f = true)
    (hp : getProjectForFile f = some k) :
    f ∈ lookupGroup (groupFiles env files).projectFiles k :=
  mem_lookupGroup_foldl env files ⟨[], []⟩ k f (Or.inr ⟨hmem, hex, hp⟩)

end LintStagedDispatch.LintStagedNx

namespace LintStagedDispatch

/-! ### Executor lemmas -/

theorem filter_not_isEmpty {α : Type} (p : α → Bool) (l : List α) :
    (l.filter (fun a => !(p a))).isEmpty = l.all p := by
  induction l with
  | nil => rfl
  | cons a tail ih =>
      cases ha : p a <;> simp [List.filter_cons, List.all_cons, ha, ih]

theorem lintFilesDirect_batch_ok (env : Env) (files : List Path)
    (h : env.run (Cmd.eslintFix files) = true) :
    LintStagedNx.lintFilesDirect env files = (true, [Cmd.eslintFix files]) := by
  unfold LintStagedNx.lintFilesDirect
  rw [if_pos h]

theorem lintFilesDirect_batch_fail (env : Env) (files : List Path)
    (h : env.run (Cmd.eslintFix files) = false) :
    LintStagedNx.lintFilesDirect env files
      = (files.all (fun f => env.run (Cmd.eslintFix [f])),
         Cmd.eslintFix files :: files.map (fun f => Cmd.eslintFix [f])) := by
  unfold LintStagedNx.lintFilesDirect
  rw [if_neg (by rw [h]; exact Bool.false_ne_true)]
  simp only [filter_not_isEmpty]

theorem lintFilesDirect_trace_eslint (env : Env) (files : List Path) :
    ∀ c ∈ (LintStagedNx.lintFilesDirect env files).2, ∃ fs, c = Cmd.eslintFix fs := by
  intro c hc
  by_cases h : env.run (Cmd.eslintFix files) = true
  · rw [lintFilesDirect_batch_ok env files h] at hc
    exact ⟨files, List.mem_singleton.mp hc⟩
  · rw [lintFilesDirect_batch_fail env files (Bool.not_eq_true _ ▸ h)] at hc
    rcases List.mem_cons.mp hc with rfl | hmap
    · exact ⟨files, rfl⟩
    · obtain ⟨f, _, rfl⟩ := List.mem_map.mp hmap
      exact ⟨[f], rfl⟩

theorem lintFilesDirect_trace_batch (env : Env) (files : List Path) :
    Cmd.eslintFix files ∈ (LintStagedNx.lintFilesDirect env files).2 := by
  by_cases h : env.run (Cmd.eslintFix files) = true
  · rw [lintFilesDirect_batch_ok env files h]
    exact List.mem_singleton_self _
  · rw [lintFilesDirect_batch_fail env files (Bool.not_eq_true _ ▸ h)]
    exact List.mem_cons_self _ _

theorem lintProjectFiles_no_target (env : Env) (project : Path) (files : List Path)
    (h : projectHasLintTarget env project = false) :
    LintStagedNx.lintProjectFiles env project files
      = ((LintStagedNx.lintFilesDirect env files).1,
         Cmd.nxShowProject project :: (LintStagedNx.lintFilesDirect env files).2) := by
  unfold LintStagedNx.lintProjectFiles
  rw [if_neg (by rw [h]; exact Bool.false_ne_true)]

theorem lintOneProject_no_target (env : Env) (files : List Path) (project : Path)
    (h : projectHasLintTarget env project = false) :
    NxMonorepo.lintOneProject env files project
      = (true, [Cmd.nxShowProject project]) := by
  unfold NxMonorepo.lintOneProject
  rw [if_neg (by rw [h]; exact Bool.false_ne_true)]

theorem processGroups_eq (env : Env) (pf : List (Path × List Path)) :
    LintStagedNx.processGroups env pf
      = (pf.all (fun g => (LintStagedNx.lintProjectFiles env g.1 g.2).1),
         (pf.map (fun g => (LintStagedNx.lintProjectFiles env g.1 g.2).2)).flatten) := by
  induction pf with
  | nil => rfl
  | cons g rest ih =>
      obtain ⟨project, files⟩ := g
      simp only [LintStagedNx.processGroups, ih, List.all_cons, List.map_cons,
        List.flatten_cons]

theorem lintFilesDirectly_trace (env : Env) (files : List Path) :
    ∀ c ∈ (NxMonorepo.lintFilesDirectly env files).2, c = Cmd.eslintFix files := by
  intro c hc
  unfold NxMonorepo.lintFilesDirectly at hc
  by_cases h : files.isEmpty
  · rw [if_pos h] at hc
    exact absurd hc (List.not_mem_nil _)
  · rw [if_neg h] at hc
    exact List.mem_singleton.mp hc

theorem lintSpecificProjects_foldl (env : Env) (files : List Path)
    (projects : List Path) :
    ∀ (b : Bool) (tr : List Cmd),
      projects.foldl
        (fun acc project =>
          let r := NxMonorepo.lintOneProject env files project
          (acc.1 && r.1, acc.2 ++ r.2))
        (b, tr)
      = (b && projects.all (fun p => (NxMonorepo.lintOneProject env files p).1),
         tr ++ (projects.map (fun p => (NxMonorepo.lintOneProject env files p).2)).flatten) := by
  induction projects with
  | nil =>
      intro b tr
      simp
  | cons p ps ih =>
      intro b tr
      rw [List.foldl_cons]
      rw [ih]
      simp [List.all_cons, List.flatten_cons, Bool.and_assoc, List.append_assoc]

theorem lintSpecificProjects_eq (env : Env) (projects : List Path) (files : List Path)
    (h : projects ≠ []) :
    NxMonorepo.lintSpecificProjects env projects files
      = (projects.all (fun p => (NxMonorepo.lintOneProject env files p).1),
         (projects.map (fun p => (NxMonorepo.lintOneProject env files p).2)).flatten) := by
  unfold NxMonorepo.lintSpecificProjects
  rw [if_neg (by simpa [List.isEmpty_iff] using h)]
  rw [lintSpecificProjects_foldl]
  simp

/-! ### Whole-run lemmas -/

theorem nxMainRun_no_manifest (env : Env) (staged : List Path)
    (h : env.fsExists NxMonorepo.nxJsonPath = false) :
    NxMonorepo.mainRun env staged
      = (if (NxMonorepo.lintFilesDirectly env (NxMonorepo.filterLintableFiles env staged)).1
          then 0 else 1,
         (NxMonorepo.lintFilesDirectly env (NxMonorepo.filterLintableFiles env staged)).2) := by
  unfold NxMonorepo.mainRun
  by_cases h1 : staged.isEmpty
  · rw [if_pos h1]
    rw [List.isEmpty_iff.mp h1]
    rfl
  · rw [if_neg h1]
    by_cases h2 : (NxMonorepo.filterLintableFiles env staged).isEmpty
    · rw [if_pos h2, List.isEmpty_iff.mp h2]
      rfl
    · rw [if_neg h2, if_pos h]

theorem foldl_groupStep_none (env : Env) (staged : List Path)
    (h : ∀ f ∈ staged, env.fsExists f = false) :
    ∀ st : LintStagedNx.Groups, staged.foldl (LintStagedNx.groupStep env) st = st := by
  induction staged with
  | nil => intro st; rfl
  | cons x xs ih =>
      intro st
      rw [List.foldl_cons]
      have hx : LintStagedNx.groupStep env st x = st := by
        unfold LintStagedNx.groupStep
        rw [if_neg (by rw [h x (List.mem_cons_self x xs)]; exact Bool.false_ne_true)]
      rw [hx]
      exact ih (fun f hf => h f (List.mem_cons_of_mem x hf)) st

theorem groupFiles_none (env : Env) (staged : List Path)
    (h : ∀ f ∈ staged, env.fsExists f = false) :
    LintStagedNx.groupFiles env staged = ⟨[], []⟩ :=
  foldl_groupStep_none env staged h ⟨[], []⟩

theorem lintStagedNxMainRun_noFiles (env : Env) (staged : List Path)
    (h : ∀ f ∈ staged, env.fsExists f = false) :
    LintStagedNx.mainRun env staged = (0, []) := by
  unfold LintStagedNx.mainRun
  by_cases h1 : staged.isEmpty
  · rw [if_pos h1]
  · rw [if_neg h1, groupFiles_none env staged h]
    rfl

theorem nxMainRun_projects (env : Env) (staged : List Path)
    (h1 : NxMonorepo.filterLintableFiles env staged ≠ [])
    (h2 : env.fsExists NxMonorepo.nxJsonPath = true)
    (h3 : NxMonorepo.getAffectedProjectsFromFiles
      (NxMonorepo.filterLintableFiles env staged) ≠ []) :
    NxMonorepo.mainRun env staged
      = (if (NxMonorepo.lintSpecificProjects env
              (NxMonorepo.getAffectedProjectsFromFiles
                (NxMonorepo.filterLintableFiles env staged))
              (NxMonorepo.filterLintableFiles env staged)).1
          then 0 else 1,
         (NxMonorepo.lintSpecificProjects env
              (NxMonorepo.getAffectedProjectsFromFiles
                (NxMonorepo.filterLintableFiles env staged))
              (NxMonorepo.filterLintableFiles env staged)).2) := by
  have hs : ¬staged.isEmpty := by
    intro he
    rw [List.isEmpty_iff.mp he] at h1
    exact h1 rfl
  unfold NxMonorepo.mainRun
  rw [if_neg hs, if_neg (by simpa [List.isEmpty_iff] using h1),
    if_neg (by rw [h2]; simp),
    if_neg (by simpa [List.isEmpty_iff] using h3)]

theorem mem_filterLintableFiles (env : Env) (input : List Path) (f : Path) :
    f ∈ NxMonorepo.filterLintableFiles env input
      ↔ f ∈ input ∧ NxMonorepo.isExcludedFile f = false
          ∧ NxMonorepo.isLintableFile f = true ∧ env.fsExists f = true := by
  unfold NxMonorepo.filterLintableFiles
  rw [List.mem_filter]
  constructor
  · rintro ⟨hmem, hp⟩
    cases hex : NxMonorepo.isExcludedFile f with
    | true =>
        rw [if_pos hex] at hp
        exact absurd hp Bool.false_ne_true
    | false =>
        rw [if_neg (by rw [hex]; exact Bool.false_ne_true)] at hp
        obtain ⟨h1, h2⟩ := Bool.and_eq_true_iff.mp hp
        exact ⟨hmem, rfl, h1, h2⟩
  · rintro ⟨hmem, hex, hlint, hfs⟩
    refine ⟨hmem, ?_⟩
    rw [if_neg (by rw [hex]; exact Bool.false_ne_true), hlint, hfs]
    rfl

end LintStagedDispatch

namespace LintStagedDispatch

/-! ### Claim theorems -/

/-- C1: for every input file list, the groups produced by the
filter-and-group pipeline partition the filtered input exactly: a file is
in some group (under set semantics, so duplicate paths collapse) iff it is
an input file that exists, is lintable and is not excluded; every file
stored under a project key classifies to exactly that key, every workspace
file classifies to no project, and project keys are pairwise distinct, so
each file belongs to exactly one group. -/
theorem c1_grouping_partition (env : Env) (input : List Path) :
    (∀ f, LintStagedNx.memGroups (pipelineGroups env input) f
        ↔ f ∈ input ∧ env.fsExists f = true ∧ NxMonorepo.isLintableFile f = true
            ∧ NxMonorepo.isExcludedFile f = false)
    ∧ (∀ k fs f, (k, fs) ∈ (pipelineGroups env input).projectFiles → f ∈ fs →
        LintStagedNx.getProjectForFile f = some k)
    ∧ (∀ f, f ∈ (pipelineGroups env input).workspaceFiles →
        LintStagedNx.getProjectForFile f = none)
    ∧ ((pipelineGroups env input).projectFiles.map Prod.fst).Nodup := by
  refine ⟨fun f => ?_, ?_, ?_, ?_⟩
  · unfold pipelineGroups
    rw [LintStagedNx.memGroups_groupFiles, mem_filterLintableFiles]
    constructor
    · rintro ⟨⟨hmem, hex, hlint, hfs⟩, _⟩
      exact ⟨hmem, hfs, hlint, hex⟩
    · rintro ⟨hmem, hfs, hlint, hex⟩
      exact ⟨⟨hmem, hex, hlint, hfs⟩, hfs⟩
  · intro k fs f hm hf
    exact (LintStagedNx.keyInv_groupFiles env _).1 k fs hm f hf
  · intro f hf
    exact (LintStagedNx.keyInv_groupFiles env _).2 f hf
  · exact LintStagedNx.nodup_keys_groupFiles env _

/-- Witness for C1 at a concrete input: the file `apps/web/a.ts`, staged
twice alongside a non-lintable file, sits in the group keyed `web`, and the
claim theorem then forces its classification. -/
theorem c1_grouping_partition_witness :
    LintStagedNx.getProjectForFile cFileA = some cWeb :=
  (c1_grouping_partition envAll [cFileA, cFileA, ("README.md".toList)]).2.1
    cWeb [cFileA, cFileA] cFileA (by decide) (by decide)

/-- C2: classification is determined by the normalized path; a normalized
path with leading segments `apps/<name>` classifies as application
`<name>`, `libs/<name>` as library `<name>`, anything matching neither
pattern as workspace root (first match winning); the two scripts'
classifiers agree on the project name; and the Windows-style
`apps\foo\bar.ts` classifies exactly like the POSIX-style
`apps/foo/bar.ts`, namely as application `foo`. -/
theorem c2_classification_normalized :
    (∀ p, NxMonorepo.getProjectFromFilePath (normalizePath p)
        = NxMonorepo.getProjectFromFilePath p)
    ∧ (∀ name rest, name ≠ [] → (∀ c ∈ name, c ≠ '/' ∧ c ≠ '\\') →
        NxMonorepo.getProjectFromFilePath (appsPre ++ name ++ '/' :: rest)
          = ⟨ProjKind.app, some name⟩)
    ∧ (∀ name rest, name ≠ [] → (∀ c ∈ name, c ≠ '/' ∧ c ≠ '\\') →
        NxMonorepo.getProjectFromFilePath (libsPre ++ name ++ '/' :: rest)
          = ⟨ProjKind.lib, some name⟩)
    ∧ (∀ p, matchProjectSeg appsPre (normalizePath p) = none →
        matchProjectSeg libsPre (normalizePath p) = none →
        NxMonorepo.getProjectFromFilePath p = ⟨ProjKind.root, none⟩)
    ∧ (∀ p, LintStagedNx.getProjectForFile p
        = (NxMonorepo.getProjectFromFilePath p).name)
    ∧ NxMonorepo.getProjectFromFilePath ("apps\\foo\\bar.ts".toList)
        = NxMonorepo.getProjectFromFilePath ("apps/foo/bar.ts".toList)
    ∧ NxMonorepo.getProjectFromFilePath ("apps/foo/bar.ts".toList)
        = ⟨ProjKind.app, some ("foo".toList)⟩ :=
  ⟨getProjectFromFilePath_norm, getProjectFromFilePath_apps,
   getProjectFromFilePath_libs, getProjectFromFilePath_root,
   getProjectForFile_eq_name, by decide, by decide⟩

/-- Witness for C2 at the concrete path `apps/foo/bar.ts`. -/
theorem c2_classification_normalized_witness :
    NxMonorepo.getProjectFromFilePath (appsPre ++ ("foo".toList) ++ '/' :: ("bar.ts".toList))
      = ⟨ProjKind.app, some ("foo".toList)⟩ :=
  c2_classification_normalized.2.1 ("foo".toList) ("bar.ts".toList) (by decide) (by decide)

/-- C3 counterexample: in `nx-monorepo-lint-staged.js`, a project group
whose lint-capability query reports no lint target is skipped entirely:
for the staged file `apps/web/a.ts` with no lint target anywhere, the
whole run issues only the capability query, never an eslint invocation on
the group's files, and exits 0 — contradicting the claim that such a group
is linted by direct engine invocation. -/
theorem c3_no_target_counterexample :
    projectHasLintTarget envNoLint cWeb = false
    ∧ NxMonorepo.mainRun envNoLint [cFileA] = (0, [Cmd.nxShowProject cWeb])
    ∧ Cmd.eslintFix [cFileA] ∉ (NxMonorepo.mainRun envNoLint [cFileA]).2 :=
  ⟨by decide, by decide, by decide⟩

/-- C3 amended: in `lint-staged-nx.js`, a group whose lint-capability query
reports no lint target is linted via `lintFilesDirect` — the batch
`eslint --fix` on exactly the group's files appears in the trace, and
every command issued for the group is either the capability query or an
eslint invocation (never `nx lint`); in `nx-monorepo-lint-staged.js`, such
a group is instead skipped entirely: after the capability query no lint
invocation of any kind is issued for it and it counts as successful. -/
theorem c3_no_target_amended (env : Env) (project : Path) (files : List Path)
    (h : projectHasLintTarget env project = false) :
    LintStagedNx.lintProjectFiles env project files
      = ((LintStagedNx.lintFilesDirect env files).1,
         Cmd.nxShowProject project :: (LintStagedNx.lintFilesDirect env files).2)
    ∧ Cmd.eslintFix files ∈ (LintStagedNx.lintProjectFiles env project files).2
    ∧ (∀ c ∈ (LintStagedNx.lintProjectFiles env project files).2,
        c = Cmd.nxShowProject project ∨ ∃ fs, c = Cmd.eslintFix fs)
    ∧ NxMonorepo.lintOneProject env files project
        = (true, [Cmd.nxShowProject project]) := by
  have he := lintProjectFiles_no_target env project files h
  refine ⟨he, ?_, ?_, lintOneProject_no_target env files project h⟩
  · rw [he]
    exact List.mem_cons_of_mem _ (lintFilesDirect_trace_batch env files)
  · intro c hc
    rw [he] at hc
    rcases List.mem_cons.mp hc with rfl | hc
    · exact Or.inl rfl
    · exact Or.inr (lintFilesDirect_trace_eslint env files c hc)

/-- Witness for C3's amended statement at a concrete no-lint-target run. -/
theorem c3_no_target_amended_witness :
    NxMonorepo.lintOneProject envNoLint [cFileA] cWeb
      = (true, [Cmd.nxShowProject cWeb]) :=
  (c3_no_target_amended envNoLint cWeb [cFileA] (by decide)).2.2.2

/-- C4 counterexample: in `nx-monorepo-lint-staged.js`, when the batch
eslint invocation on a group of 3 files fails, the run concludes group
failure after that single batch invocation, with zero per-file engine
invocations — contradicting the claim that the engine is then invoked
exactly once per file. -/
theorem c4_retry_counterexample :
    envBatchFail.run (Cmd.eslintFix [cFileA, cFileB, cFileC]) = false
    ∧ NxMonorepo.lintFilesDirectly envBatchFail [cFileA, cFileB, cFileC]
        = (false, [Cmd.eslintFix [cFileA, cFileB, cFileC]])
    ∧ singleFileEslintCount
        (NxMonorepo.lintFilesDirectly envBatchFail [cFileA, cFileB, cFileC]).2 = 0 :=
  ⟨by decide, by decide, by decide⟩

/-- C4 amended: in `lint-staged-nx.js`'s `lintFilesDirect`, when the batch
eslint invocation on a group of n files fails, the engine is invoked
exactly once per file (n further invocations, giving a trace of length
n + 1) and the group succeeds iff every per-file invocation succeeds; in
`nx-monorepo-lint-staged.js`'s `lintFilesDirectly` there is no per-file
retry: a nonempty group whose batch invocation fails concludes failure
immediately after the single batch invocation. -/
theorem c4_retry_amended (env : Env) (files : List Path)
    (h : env.run (Cmd.eslintFix files) = false) :
    LintStagedNx.lintFilesDirect env files
      = (files.all (fun f => env.run (Cmd.eslintFix [f])),
         Cmd.eslintFix files :: files.map (fun f => Cmd.eslintFix [f]))
    ∧ (LintStagedNx.lintFilesDirect env files).2.length = files.length + 1
    ∧ ((LintStagedNx.lintFilesDirect env files).1 = true
        ↔ ∀ f ∈ files, env.run (Cmd.eslintFix [f]) = true)
    ∧ (files ≠ [] → NxMonorepo.lintFilesDirectly env files
        = (false, [Cmd.eslintFix files])) := by
  have he := lintFilesDirect_batch_fail env files h
  refine ⟨he, ?_, ?_, ?_⟩
  · rw [he]
    simp
  · rw [he]
    simp [List.all_eq_true]
  · intro hne
    unfold NxMonorepo.lintFilesDirectly
    rw [if_neg (by simpa [List.isEmpty_iff] using hne), h]

/-- Witness for C4's amended statement: a failing batch of three files is
retried file-by-file, one invocation per file. -/
theorem c4_retry_amended_witness :
    LintStagedNx.lintFilesDirect envBatchFail [cFileA, cFileB, cFileC]
      = ([cFileA, cFileB, cFileC].all
           (fun f => envBatchFail.run (Cmd.eslintFix [f])),
         Cmd.eslintFix [cFileA, cFileB, cFileC]
           :: [cFileA, cFileB, cFileC].map (fun f => Cmd.eslintFix [f])) :=
  (c4_retry_amended envBatchFail [cFileA, cFileB, cFileC] (by decide)).1

/-- C5: one group's failure does not halt the run.  In `lint-staged-nx.js`
the group loop's verdict is the conjunction of every group's own result
and its trace is the concatenation of every group's own trace (so later
groups are processed in full regardless of earlier failures), and the
process exits 0 iff all groups (including the workspace group) succeed,
else 1; in `nx-monorepo-lint-staged.js` the project loop likewise conjoins
all per-project results, concatenates all per-project traces, and the
process exit code is 0 iff that conjunction holds, else 1. -/
theorem c5_aggregate_independent :
    (∀ (env : Env) (pf : List (Path × List Path)),
      LintStagedNx.processGroups env pf
        = (pf.all (fun g => (LintStagedNx.lintProjectFiles env g.1 g.2).1),
           (pf.map (fun g => (LintStagedNx.lintProjectFiles env g.1 g.2).2)).flatten))
    ∧ (∀ (env : Env) (staged : List Path), staged ≠ [] →
        (LintStagedNx.mainRun env staged).1
          = (if ((LintStagedNx.groupFiles env staged).projectFiles.all
                  (fun g => (LintStagedNx.lintProjectFiles env g.1 g.2).1))
                && ((LintStagedNx.groupFiles env staged).workspaceFiles.isEmpty
                    || (LintStagedNx.lintFilesDirect env
                          (LintStagedNx.groupFiles env staged).workspaceFiles).1)
             then 0 else 1))
    ∧ (∀ (env : Env) (projects files : List Path), projects ≠ [] →
        NxMonorepo.lintSpecificProjects env projects files
          = (projects.all (fun p => (NxMonorepo.lintOneProject env files p).1),
             (projects.map (fun p => (NxMonorepo.lintOneProject env files p).2)).flatten))
    ∧ (∀ (env : Env) (staged : List Path),
        NxMonorepo.filterLintableFiles env staged ≠ [] →
        env.fsExists NxMonorepo.nxJsonPath = true →
        NxMonorepo.getAffectedProjectsFromFiles
          (NxMonorepo.filterLintableFiles env staged) ≠ [] →
        (NxMonorepo.mainRun env staged).1
          = (if (NxMonorepo.getAffectedProjectsFromFiles
                  (NxMonorepo.filterLintableFiles env staged)).all
                (fun p => (NxMonorepo.lintOneProject env
                  (NxMonorepo.filterLintableFiles env staged) p).1)
             then 0 else 1)) := by
  refine ⟨processGroups_eq, ?_, lintSpecificProjects_eq, ?_⟩
  · intro env staged hne
    unfold LintStagedNx.mainRun
    rw [if_neg (by simpa [List.isEmpty_iff] using hne)]
    simp only [processGroups_eq]
    by_cases hw : (LintStagedNx.groupFiles env staged).workspaceFiles.isEmpty
    · rw [if_pos hw, hw]
      simp only [Bool.true_or]
    · rw [if_neg hw]
      have hw' : (LintStagedNx.groupFiles env staged).workspaceFiles.isEmpty = false :=
        Bool.not_eq_true _ ▸ hw
      rw [hw']
      simp only [Bool.false_or]
  · intro env staged h1 h2 h3
    rw [nxMainRun_projects env staged h1 h2 h3,
      lintSpecificProjects_eq env _ _ h3]

/-- Witness for C5 at a concrete run with one project group. -/
theorem c5_aggregate_independent_witness :
    (LintStagedNx.mainRun envAll [cFileA]).1
      = (if ((LintStagedNx.groupFiles envAll [cFileA]).projectFiles.all
              (fun g => (LintStagedNx.lintProjectFiles envAll g.1 g.2).1))
            && ((LintStagedNx.groupFiles envAll [cFileA]).workspaceFiles.isEmpty
                || (LintStagedNx.lintFilesDirect envAll
                      (LintStagedNx.groupFiles envAll [cFileA]).workspaceFiles).1)
         then 0 else 1) :=
  c5_aggregate_independent.2.1 envAll [cFileA] (by decide)

/-- C6: evaluation at the failing input.  The staged file
`libs/ui-kit/src/c.ts`, written relative to the repository root, lies
under the excluded library `ui-kit`, yet the exclusion test is false for
it (so no informational note is emitted), it survives the filter, no
project is derived from it, and the run hands exactly this file to a
direct `eslint --fix` subprocess — contrary to the claim that such a file
never appears in any group or subprocess argument list. -/
theorem c6_exclusion_bug_eval :
    NxMonorepo.isExcludedFile cUiKit = false
    ∧ NxMonorepo.filterLintableFiles envAll [cUiKit] = [cUiKit]
    ∧ NxMonorepo.getAffectedProjectsFromFiles [cUiKit] = []
    ∧ NxMonorepo.mainRun envAll [cUiKit] = (0, [Cmd.eslintFix [cUiKit]]) :=
  ⟨by decide, by decide, by decide, by decide⟩

/-- C7: when the workspace manifest `nx.json` is absent, the whole run
equals a direct eslint invocation on the filtered files — the exit code is
0 iff that invocation succeeds (or there was nothing to lint) — and every
command in the run's trace is an eslint invocation, so the orchestration
tool is never queried or invoked. -/
theorem c7_no_manifest_direct (env : Env) (staged : List Path)
    (h : env.fsExists NxMonorepo.nxJsonPath = false) :
    NxMonorepo.mainRun env staged
      = (if (NxMonorepo.lintFilesDirectly env
              (NxMonorepo.filterLintableFiles env staged)).1
          then 0 else 1,
         (NxMonorepo.lintFilesDirectly env
              (NxMonorepo.filterLintableFiles env staged)).2)
    ∧ (∀ c ∈ (NxMonorepo.mainRun env staged).2, ∃ fs, c = Cmd.eslintFix fs) := by
  have he := nxMainRun_no_manifest env staged h
  refine ⟨he, fun c hc => ?_⟩
  rw [he] at hc
  exact ⟨_, lintFilesDirectly_trace env _ c hc⟩

/-- Witness for C7 at a concrete manifest-less run. -/
theorem c7_no_manifest_direct_witness :
    NxMonorepo.mainRun envNoManifest [cFileA]
      = (if (NxMonorepo.lintFilesDirectly envNoManifest
              (NxMonorepo.filterLintableFiles envNoManifest [cFileA])).1
          then 0 else 1,
         (NxMonorepo.lintFilesDirectly envNoManifest
              (NxMonorepo.filterLintableFiles envNoManifest [cFileA])).2) :=
  (c7_no_manifest_direct envNoManifest [cFileA] (by decide)).1

/-- C8: an empty argument list exits 0 with no external invocation in
either dispatcher; in `nx-monorepo-lint-staged.js` a list whose files are
all removed by the filters exits 0 with no external invocation; and in
`lint-staged-nx.js` a list of files none of which exists on disk likewise
exits 0 with no external invocation. -/
theorem c8_empty_noop (env : Env) (staged : List Path) :
    (staged = [] → NxMonorepo.mainRun env staged = (0, [])
        ∧ LintStagedNx.mainRun env staged = (0, []))
    ∧ (NxMonorepo.filterLintableFiles env staged = [] →
        NxMonorepo.mainRun env staged = (0, []))
    ∧ ((∀ f ∈ staged, env.fsExists f = false) →
        LintStagedNx.mainRun env staged = (0, [])) := by
  refine ⟨?_, ?_, lintStagedNxMainRun_noFiles env staged⟩
  · rintro rfl
    exact ⟨rfl, rfl⟩
  · intro h
    unfold NxMonorepo.mainRun
    by_cases h1 : staged.isEmpty
    · rw [if_pos h1]
    · rw [if_neg h1, if_pos (by rw [h]; rfl)]

/-- Witness for C8 at the empty argument list. -/
theorem c8_empty_noop_witness :
    NxMonorepo.mainRun envAll [] = (0, []) :=
  ((c8_empty_noop envAll []).1 rfl).1

/-- C9 counterexample: the stderr chunk `lint failed` contains neither
`warning` nor `deprecated`, so per the claim it would be surfaced, yet the
handler suppresses it (it lacks `error`); conversely the chunk
`error: deprecated API` contains `deprecated`, so per the claim it would
be suppressed, yet the handler surfaces it. -/
theorem c9_stderr_counterexample :
    containsSubstr ("lint failed".toList) ("warning".toList) = false
    ∧ containsSubstr ("lint failed".toList) ("deprecated".toList) = false
    ∧ NxMonorepo.surfacedStderr [("lint failed".toList)] = []
    ∧ containsSubstr ("error: deprecated API".toList) ("deprecated".toList) = true
    ∧ NxMonorepo.surfacedStderr [("error: deprecated API".toList)]
        = [("error: deprecated API".toList)] :=
  ⟨by decide, by decide, by decide, by decide, by decide⟩

/-- C9 amended: a stderr chunk of a direct lint-engine invocation is
surfaced to the user iff it contains the substring `error` and does not
contain the substring `warning`; all other chunks are suppressed (the
substring `deprecated` plays no role). -/
theorem c9_stderr_amended (chunks : List Path) (c : Path) :
    c ∈ NxMonorepo.surfacedStderr chunks
      ↔ c ∈ chunks ∧ containsSubstr c ("error".toList) = true
          ∧ containsSubstr c ("warning".toList) = false := by
  unfold NxMonorepo.surfacedStderr
  rw [List.mem_filter]
  unfold NxMonorepo.stderrChunkShown
  rw [Bool.and_eq_true_iff]
  simp [Bool.not_eq_true', and_assoc]

/-- C10: grouping in `lint-staged-nx.js` keys on the bare project name:
two existing staged files `apps/<n>/...` and `libs/<n>/...` with the same
second segment `<n>` both classify to the name `<n>` (the kind is not part
of the key) and land in the same group of the grouping map, which contains
the key `<n>` exactly once. -/
theorem c10_bare_name_grouping (env : Env) (input : List Path) (n r1 r2 : Path)
    (hn : n ≠ []) (hc : ∀ c ∈ n, c ≠ '/' ∧ c ≠ '\\')
    (h1 : (appsPre ++ n ++ '/' :: r1) ∈ input)
    (h2 : (libsPre ++ n ++ '/' :: r2) ∈ input)
    (e1 : env.fsExists (appsPre ++ n ++ '/' :: r1) = true)
    (e2 : env.fsExists (libsPre ++ n ++ '/' :: r2) = true) :
    LintStagedNx.getProjectForFile (appsPre ++ n ++ '/' :: r1) = some n
    ∧ LintStagedNx.getProjectForFile (libsPre ++ n ++ '/' :: r2) = some n
    ∧ (n, LintStagedNx.lookupGroup (LintStagedNx.groupFiles env input).projectFiles n)
        ∈ (LintStagedNx.groupFiles env input).projectFiles
    ∧ (appsPre ++ n ++ '/' :: r1)
        ∈ LintStagedNx.lookupGroup (LintStagedNx.groupFiles env input).projectFiles n
    ∧ (libsPre ++ n ++ '/' :: r2)
        ∈ LintStagedNx.lookupGroup (LintStagedNx.groupFiles env input).projectFiles n := by
  have hp1 : LintStagedNx.getProjectForFile (appsPre ++ n ++ '/' :: r1) = some n := by
    rw [getProjectForFile_eq_name, getProjectFromFilePath_apps n r1 hn hc]
  have hp2 : LintStagedNx.getProjectForFile (libsPre ++ n ++ '/' :: r2) = some n := by
    rw [getProjectForFile_eq_name, getProjectFromFilePath_libs n r2 hn hc]
  have m1 := LintStagedNx.mem_lookupGroup_groupFiles env input _ n h1 e1 hp1
  have m2 := LintStagedNx.mem_lookupGroup_groupFiles env input _ n h2 e2 hp2
  exact ⟨hp1, hp2, LintStagedNx.mem_lookupGroup_self _ _ _ m1, m1, m2⟩

/-- Witness for C10: `apps/foo/a.ts` and `libs/foo/b.ts` both classify to
the bare name `foo`. -/
theorem c10_bare_name_grouping_witness :
    LintStagedNx.getProjectForFile (appsPre ++ ("foo".toList) ++ '/' :: ("a.ts".toList))
      = some ("foo".toList) :=
  (c10_bare_name_grouping envAll
    [appsPre ++ ("foo".toList) ++ '/' :: ("a.ts".toList),
     libsPre ++ ("foo".toList) ++ '/' :: ("b.ts".toList)]
    ("foo".toList) ("a.ts".toList) ("b.ts".toList)
    (by decide) (by decide) (by decide) (by decide) (by decide) (by decide)).1

end LintStagedDispatch

